import Mathlib

/-!
# Verification of the Ranked-Pairs vote resolver (`rpvote.py`)

This file gives a shallow embedding of the resolution engine of the
repository: the margins table (`Contest.computemargins` / `applymargin`),
the transitively closed `Outcome` relation (`beats`, `compatible`,
`accept`, `result`, the tally sort of `printresult`), and the
margin-ordered resolution driver (`Contest.compute`) with its
leave-one-out heuristic.

Candidates are strings.  Python dictionaries are modelled as insertion
ordered association lists (Python 3.7+ dictionaries preserve insertion
order), and the inner "sets via dicts with True values" are modelled as
duplicate-free key lists.  The `accept` work-list loop is modelled with
an explicit fuel parameter; running out of fuel is a distinguished
result, so every theorem about successful runs is faithful to the
(always terminating) Python loop.  Exceptions are modelled by
`Option`/`Except` results.
-/

instance exceptDecEq {ε α : Type} [DecidableEq ε] [DecidableEq α] :
    DecidableEq (Except ε α)
  | .error a, .error b =>
    if h : a = b then .isTrue (by rw [h]) else .isFalse (by simp [h])
  | .error _, .ok _ => .isFalse (by simp)
  | .ok _, .error _ => .isFalse (by simp)
  | .ok a, .ok b =>
    if h : a = b then .isTrue (by rw [h]) else .isFalse (by simp [h])

namespace RPVote

abbrev Cand := String
abbrev Group := List Cand
abbrev Ballot := List Group
abbrev CPair := Cand × Cand

/-! ## Python dict-of-dicts used for `Outcome.higher` / `Outcome.lower` -/

/-- Inner "set" (a Python dict whose values are all `True`): adding an
already present key is a no-op, a new key is appended at the end. -/
def keyInsert (d : List Cand) (k : Cand) : List Cand :=
  if k ∈ d then d else d ++ [k]

/-- Outer dict mapping a candidate to an inner set. -/
abbrev Dict2 := List (Cand × List Cand)

/-- Lookup `d.get(k)`, with a missing key giving the empty set (the code only
ever tests membership, and `dic and dic.get(col)` is falsy exactly when
the key is missing, the inner dict is empty, or the entry is absent). -/
def dictGet : Dict2 → Cand → List Cand
  | [], _ => []
  | (k', l) :: rest, k => if k' = k then l else dictGet rest k

/-- Update `dic = d.get(k); if not dic: d[k] = {v: True} else: dic[v] = True`. -/
def dictAdd : Dict2 → Cand → Cand → Dict2
  | [], k, v => [(k, [v])]
  | (k', l) :: rest, k, v =>
    if k' = k then (k', keyInsert l v) :: rest else (k', l) :: dictAdd rest k v

/-! ## The margins table -/

/-- The margins table: a dict from ordered candidate pairs to integers
(`Contest.margins`), kept in insertion order. -/
abbrev Margins := List (CPair × Int)

def mlookup : Margins → CPair → Option Int
  | [], _ => none
  | (q, v) :: rest, p => if q = p then some v else mlookup rest p

/-- Lookup `margins.get((row, col), 0)`. -/
def mget (m : Margins) (p : CPair) : Int := (mlookup m p).getD 0

/-- Presence test `(row, col) in margins`. -/
def mpresent (m : Margins) (p : CPair) : Prop := mlookup m p ≠ none

/-- Assignment `margins[(row, col)] = val` (update in place, or append a new key). -/
def mset : Margins → CPair → Int → Margins
  | [], p, v => [(p, v)]
  | (q, w) :: rest, p, v =>
    if q = p then (q, v) :: rest else (q, w) :: mset rest p v

/-- Method `Contest.applymargin(row, col, rowwins)`: add `±1` to the `(row, col)`
entry of the table (and only to it). -/
def applymargin (m : Margins) (row col : Cand) (rowwins : Bool) : Margins :=
  mset m (row, col) (mget m (row, col) + if rowwins then 1 else -1)

/-- One `applymargin` call described as a data triple. -/
def applyEvent (m : Margins) (e : Cand × Cand × Bool) : Margins :=
  applymargin m e.1 e.2.1 e.2.2

/-- The sequence of `applymargin` calls performed for one ballot by the
loop nest of `Contest.computemargins`: for each rank index `ix`, each
`row` of that rank, each rank index `jx ≠ ix` and each `col` of rank
`jx`, the call `applymargin(row, col, ix < jx)`. -/
def ballotEvents (b : Ballot) : List (Cand × Cand × Bool) :=
  b.enum.flatMap fun p =>
    p.2.flatMap fun row =>
      b.enum.flatMap fun q =>
        if q.1 = p.1 then []
        else q.2.map fun col => (row, col, decide (p.1 < q.1))

/-- The effect of one ballot on the margins table. -/
def recordBallot (m : Margins) (b : Ballot) : Margins :=
  (ballotEvents b).foldl applyEvent m

/-- The ballot-scanning part of `Contest.computemargins` (lines 259-268):
every ballot is scanned exactly once. -/
def recordBallots (m : Margins) (bs : List Ballot) : Margins :=
  bs.foldl recordBallot m

/-! ## `Contest` -/

structure Contest where
  entries : List Cand
  ballots : List Ballot
  margins : Margins
deriving DecidableEq

def Contest.count (c : Contest) : Nat := c.entries.length

/-- Python `int(s)` on a candidate name: an optional minus sign followed
by a nonempty digit string; anything else raises `ValueError` (`none`). -/
def pyInt (s : String) : Option Int :=
  match s.data with
  | [] => none
  | '-' :: rest =>
    if rest ≠ [] ∧ rest.all (·.isDigit) then
      some (-(rest.foldl (fun a c => a * 10 + ((c.toNat : Int) - 48)) 0))
    else none
  | cs =>
    if cs.all (·.isDigit) then
      some (cs.foldl (fun a c => a * 10 + ((c.toNat : Int) - 48)) 0)
    else none

/-- Method `Contest.margin_to_matrix`: converts the margins dict into a numpy
matrix by parsing each candidate name with `int(...)` and writing
`matrix[int(row)-1, int(col)-1] = margin` (entries with equal indices are
skipped).  The matrix is modelled as the list of performed assignments;
a failed `int` parse or an out-of-range numpy index raises (`none`). -/
def margin_to_matrix : Nat → Margins → Option (List ((Int × Int) × Int))
  | _, [] => some []
  | count, (p, v) :: rest => do
    let r ← pyInt p.1
    let c ← pyInt p.2
    if r - 1 = c - 1 then margin_to_matrix count rest
    else if -(count : Int) ≤ r - 1 ∧ r - 1 < (count : Int) ∧
            -(count : Int) ≤ c - 1 ∧ c - 1 < (count : Int) then
      (margin_to_matrix count rest).map ((((r - 1 : Int), (c - 1 : Int)), v) :: ·)
    else none

/-- Method `Contest.computemargins`: scan every ballot into the margins table,
then call `margin_to_matrix` (which can raise).  Returns the updated
contest together with the matrix assignment list. -/
def Contest.computemargins (c : Contest) :
    Option (Contest × List ((Int × Int) × Int)) :=
  let m := recordBallots c.margins c.ballots
  (margin_to_matrix c.entries.length m).map fun mat => ({ c with margins := m }, mat)

/-! ## `Outcome` -/

structure Outcome where
  entries : List Cand
  higher : Dict2
  lower : Dict2
deriving DecidableEq

/-- Constructor `Outcome(contest)`: a freshly constructed, blank outcome. -/
def Outcome.blank (c : Contest) : Outcome := ⟨c.entries, [], []⟩

/-- Method `Outcome.beats(winner, loser)`. -/
def Outcome.beats (o : Outcome) (winner loser : Cand) : Bool :=
  (dictGet o.higher loser).contains winner

/-- Method `Outcome.compatible(winner, loser)`: raises (`none`) when
`winner = loser`, otherwise checks both adjacency structures for the
reverse fact. -/
def Outcome.compatible (o : Outcome) (winner loser : Cand) : Option Bool :=
  if winner = loser then none
  else some (!(dictGet o.higher winner).contains loser &&
             !(dictGet o.lower loser).contains winner)

/-- Recording one fact in both adjacency structures (the middle part of
the `accept` loop body). -/
def Outcome.record (o : Outcome) (winner loser : Cand) : Outcome :=
  { o with lower := dictAdd o.lower winner loser,
           higher := dictAdd o.higher loser winner }

/-- The consequences enqueued after recording `winner beats loser`:
`(key, loser)` for every `key` that beats `winner`, and `(winner, key)`
for every `key` that `loser` beats, skipping already known facts. -/
def consequences (o : Outcome) (winner loser : Cand) : List CPair :=
  ((dictGet o.higher winner).filter (fun key => !o.beats key loser)).map
      (fun key => (key, loser)) ++
  ((dictGet o.lower loser).filter (fun key => !o.beats winner key)).map
      (fun key => (winner, key))

/-- Failure modes of the `accept` work-list loop: the self-comparison
exception raised by `compatible`, the contradiction exception, or fuel
exhaustion (a model artefact; the Python loop always terminates). -/
inductive AcceptErr where
  | selfbeat
  | contra
  | nofuel
deriving DecidableEq

/-- The work-list loop of `Outcome.accept`: pop the front fact, fail on
an incompatible fact, skip a known fact, otherwise record it and append
its consequences. -/
def acceptLoop : Nat → Outcome → List CPair → Except AcceptErr Outcome
  | _, o, [] => .ok o
  | 0, _, _ :: _ => .error .nofuel
  | fuel + 1, o, (winner, loser) :: rest =>
    match o.compatible winner loser with
    | none => .error .selfbeat
    | some false => .error .contra
    | some true =>
      if o.beats winner loser then acceptLoop fuel o rest
      else
        acceptLoop fuel (o.record winner loser)
          (rest ++ consequences (o.record winner loser) winner loser)

/-- Method `Outcome.accept(winner, loser)`. -/
def Outcome.accept (fuel : Nat) (o : Outcome) (winner loser : Cand) :
    Except AcceptErr Outcome :=
  acceptLoop fuel o [(winner, loser)]

/-- Loop `newout = outcome.clone(); for tup in ps: newout.accept(*tup)` —
sequential accepts, aborted by the first exception. -/
def acceptList (fuel : Nat) (o : Outcome) (ps : List CPair) :
    Except AcceptErr Outcome :=
  ps.foldlM (fun acc p => Outcome.accept fuel acc p.1 p.2) o

/-- Method `Outcome.result()`: for each candidate `row`, the number of listed
candidates it beats, the number it loses to, and the unresolved rest of
`count - 1` (all as Python ints). -/
def Outcome.result (o : Outcome) (row : Cand) : Int × Int × Int :=
  let wins : Int :=
    ((o.entries.filter fun col => col != row &&
        (dictGet o.lower row).contains col).length : Int)
  let losses : Int :=
    ((o.entries.filter fun col => col != row &&
        (dictGet o.higher row).contains col).length : Int)
  (wins, losses, ((o.entries.length : Int) - 1) - (wins + losses))

/-! ## The tally sort of `Outcome.printresult` -/

/-- Python lexicographic `<` on an int pair. -/
def tupLT (a b : Int × Int) : Bool :=
  a.1 < b.1 || (a.1 = b.1 && a.2 < b.2)

/-- Python 2 `cmp(a, b) = (a > b) - (a < b)` on int pairs. -/
def pycmp (a b : Int × Int) : Int :=
  (if tupLT b a then 1 else 0) - (if tupLT a b then 1 else 0)

/-- The comparison function `func(key1, key2)` of `printresult`:
`cmp((w2, t2), (w1, t1))` on `(wins, unresolved)` pairs. -/
def rankFunc (o : Outcome) (key1 key2 : Cand) : Int :=
  pycmp ((o.result key2).1, (o.result key2).2.2)
        ((o.result key1).1, (o.result key1).2.2)

/-- Relation stating `key1` sorts no later than `key2` under `func`. -/
def rankLE (o : Outcome) (key1 key2 : Cand) : Prop :=
  rankFunc o key1 key2 ≤ 0

instance rankLE.dec (o : Outcome) : DecidableRel (rankLE o) :=
  fun k1 k2 => inferInstanceAs (Decidable (rankFunc o k1 k2 ≤ 0))

/-- The order in which `printresult` prints the candidates:
`ls = list(entries); ls.sort(key=cmp_to_key(func))` (a stable sort with
respect to the total preorder defined by `func`). -/
def Outcome.sortedEntries (o : Outcome) : List Cand :=
  List.insertionSort (rankLE o) o.entries

/-! ## The resolution driver `Contest.compute` -/

/-- The level dict of `compute`: a dict from (positive) margin values to
the list of pairs having that margin, keys in insertion order. -/
abbrev LevelDict := List (Int × List CPair)

/-- Update `ls = dic.get(val); if not ls: dic[val] = [tup] else: ls.append(tup)`. -/
def dictAddPair : LevelDict → Int → CPair → LevelDict
  | [], v, p => [(v, [p])]
  | (v', l) :: rest, v, p =>
    if v' = v then (v', l ++ [p]) :: rest else (v', l) :: dictAddPair rest v p

/-- Lookup `dic.get(level)` with a missing level giving `[]` (the code only
tests `if not ls`, and the stored lists are never empty). -/
def dicGetLs : LevelDict → Int → List CPair
  | [], _ => []
  | (v', l) :: rest, v => if v' = v then l else dicGetLs rest v

/-- The grouping loop of `compute`: every margins entry with a strictly
positive value is appended to the list of its value. -/
def groupPos (m : Margins) : LevelDict :=
  m.foldl (fun dic kv => if kv.2 ≤ 0 then dic else dictAddPair dic kv.2 kv.1) []

/-- Expression `maxmargin = max(dic.keys())` (the dict is nonempty when used). -/
def maxKey : LevelDict → Int
  | [] => 0
  | kv :: rest => rest.foldl (fun a x => max a x.1) kv.1

/-- The filter `[tup for tup in ls if outcome.compatible(*tup)]`:
evaluated left to right, a raised self-comparison exception (`none`)
propagates out of `compute`. -/
def compatFilter (o : Outcome) : List CPair → Option (List CPair)
  | [] => some []
  | p :: rest =>
    match o.compatible p.1 p.2 with
    | none => none
    | some true => (compatFilter o rest).map (p :: ·)
    | some false => compatFilter o rest

/-- Whether an accept attempt succeeded. -/
def isOkE (e : Except AcceptErr Outcome) : Bool :=
  match e with
  | .ok _ => true
  | .error _ => false

/-- The body of one margin level of `compute`: filter by compatibility,
try the whole batch on a clone, and on a contradiction run the
leave-one-out heuristic (keeping the `notguilty` facts whose omission
still fails, dropping the level when none or all are kept, otherwise
retrying the kept batch). -/
def processLevel (fuel : Nat) (o : Outcome) (ls : List CPair) :
    Except Unit Outcome :=
  match compatFilter o ls with
  | none => .error ()
  | some compatls =>
    match acceptList fuel o compatls with
    | .ok newout => .ok newout
    | .error _ =>
      let notguilty := compatls.filter fun avoid =>
        !isOkE (acceptList fuel o (compatls.filter fun t => t ≠ avoid))
      if notguilty.length = 0 ∨ notguilty.length = compatls.length then .ok o
      else
        match acceptList fuel o notguilty with
        | .ok newout => .ok newout
        | .error _ => .ok o

/-- Loop `for level in range(maxmargin, 0, -1)`: levels with no facts are
skipped, the others are processed. -/
def levelsLoop (fuel : Nat) (dic : LevelDict) : Nat → Outcome → Except Unit Outcome
  | 0, o => .ok o
  | n + 1, o =>
    let ls := dicGetLs dic ((n + 1 : Nat) : Int)
    if ls = [] then levelsLoop fuel dic n o
    else
      match processLevel fuel o ls with
      | .error e => .error e
      | .ok o' => levelsLoop fuel dic n o'

/-- Method `Contest.compute()`: group the positive margins by value, start from
a blank outcome, and process the margin levels from the largest down. -/
def Contest.compute (fuel : Nat) (c : Contest) : Except Unit Outcome :=
  let dic := groupPos c.margins
  let o := Outcome.blank c
  if dic = [] then .ok o
  else levelsLoop fuel dic (maxKey dic).toNat o



/-! ## Concrete scenario of the specification (`AAA BBB CCC DDD`) -/

/-- The contest of the spec's worked scenario: candidates
`AAA BBB CCC DDD` and the six documented ballots. -/
def scenarioContest : Contest :=
  { entries := ["AAA", "BBB", "CCC", "DDD"],
    ballots :=
      [ [["DDD"], ["CCC"], ["BBB"], ["AAA"]],
        [["DDD"], ["AAA"], ["BBB"]],
        [["DDD"], ["AAA", "CCC"], ["BBB"]],
        [["CCC"], ["AAA", "DDD", "BBB"]],
        [["AAA"]],
        [["AAA", "DDD"]] ],
    margins := [] }

/-- The margins table filled in by the ballot scan of the scenario. -/
def scenarioMargins : Margins := recordBallots scenarioContest.margins scenarioContest.ballots

/-- The outcome computed for the scenario. -/
def scenarioOutcome : Outcome :=
  { entries := ["AAA", "BBB", "CCC", "DDD"],
    higher := [("BBB", ["DDD", "CCC", "AAA"]), ("AAA", ["DDD", "CCC"]), ("CCC", ["DDD"])],
    lower := [("DDD", ["BBB", "AAA", "CCC"]), ("CCC", ["BBB", "AAA"]), ("AAA", ["BBB"])] }

/-- C1: the scenario's ballot scan produces the expected margins
(margin(AAA,BBB)=1, margin(DDD,AAA)=3, margin(CCC,AAA)=2,
margin(DDD,CCC)=1) and `compute` turns them into the expected final
tally DDD (3,0,0) > CCC (2,1,0) > AAA (1,2,0) > BBB (0,3,0) — but the
`computemargins` entry point itself raises, because its final
`margin_to_matrix` step applies `int(...)` to the non-numeric candidate
names, so the pipeline of the claim never reaches `compute`. -/
theorem scenario_margins_compute_and_matrix_crash :
    Contest.computemargins scenarioContest = none ∧
    mget scenarioMargins ("AAA", "BBB") = 1 ∧
    mget scenarioMargins ("DDD", "AAA") = 3 ∧
    mget scenarioMargins ("CCC", "AAA") = 2 ∧
    mget scenarioMargins ("DDD", "CCC") = 1 ∧
    Contest.compute 100 { scenarioContest with margins := scenarioMargins } =
      .ok scenarioOutcome ∧
    scenarioOutcome.result "DDD" = (3, 0, 0) ∧
    scenarioOutcome.result "CCC" = (2, 1, 0) ∧
    scenarioOutcome.result "AAA" = (1, 2, 0) ∧
    scenarioOutcome.result "BBB" = (0, 3, 0) ∧
    scenarioOutcome.sortedEntries = ["DDD", "CCC", "AAA", "BBB"] :=
  ⟨by decide, by decide, by decide, by decide, by decide, by decide,
   by decide, by decide, by decide, by decide, by decide⟩

/-! ## The tally sort: C2 -/

lemma pycmp_nonpos_iff (a b : Int × Int) :
    pycmp a b ≤ 0 ↔ (a.1 < b.1 ∨ (a.1 = b.1 ∧ a.2 ≤ b.2)) := by
  unfold pycmp tupLT
  split_ifs with h1 h2 h2 <;>
    simp only [Bool.or_eq_true, Bool.and_eq_true, decide_eq_true_eq,
      Bool.not_eq_true, Bool.or_eq_false_iff, Bool.and_eq_false_iff,
      decide_eq_false_iff_not, not_lt] at h1 h2 <;>
    omega

lemma rankLE_iff (o : Outcome) (k1 k2 : Cand) :
    rankLE o k1 k2 ↔
      ((o.result k2).1 < (o.result k1).1 ∨
       ((o.result k2).1 = (o.result k1).1 ∧
        (o.result k2).2.2 ≤ (o.result k1).2.2)) := by
  unfold rankLE rankFunc
  exact pycmp_nonpos_iff _ _

lemma rankLE_total (o : Outcome) : ∀ k1 k2, rankLE o k1 k2 ∨ rankLE o k2 k1 := by
  intro k1 k2
  rw [rankLE_iff, rankLE_iff]
  omega

lemma rankLE_trans (o : Outcome) :
    ∀ k1 k2 k3, rankLE o k1 k2 → rankLE o k2 k3 → rankLE o k1 k3 := by
  intro k1 k2 k3 h1 h2
  rw [rankLE_iff] at h1 h2 ⊢
  omega

lemma sortedEntries_sorted (o : Outcome) :
    List.Sorted (rankLE o) o.sortedEntries := by
  haveI : IsTotal Cand (rankLE o) := ⟨rankLE_total o⟩
  haveI : IsTrans Cand (rankLE o) := ⟨rankLE_trans o⟩
  exact List.sorted_insertionSort _ _

/-- The outcome over A, B, C in which only "A beats B" is recorded:
A scores (1,0,1), B scores (0,1,1), C scores (0,0,2). -/
def tieOutcome : Outcome := ⟨["A", "B", "C"], [("B", ["A"])], [("A", ["B"])]⟩

/-- C2 counterexample: in `tieOutcome`, `printresult`'s sort puts C
(0 wins, 2 unresolved) before B (0 wins, 1 unresolved), so a pair of
candidates with equal wins is printed in descending — not ascending —
order of unresolved count. -/
theorem sortedEntries_not_ascending_unresolved :
    tieOutcome.sortedEntries = ["A", "C", "B"] ∧
    (tieOutcome.result "C").1 = (tieOutcome.result "B").1 ∧
    ¬((tieOutcome.result "C").2.2 ≤ (tieOutcome.result "B").2.2) :=
  ⟨by decide, by decide, by decide⟩

/-- C2 (amended): `printresult` sorts candidates descending by wins and
breaks ties among candidates with equal wins by descending (not
ascending) unresolved count: if X is printed before Y and X and Y have
the same number of wins, then X's unresolved count is greater than or
equal to Y's (equivalently, X has at most as many losses). -/
theorem sortedEntries_ties_descending_unresolved (o : Outcome) (i j : Nat)
    (hij : i < j) (hj : j < o.sortedEntries.length)
    (hw : (o.result (o.sortedEntries.get ⟨i, Nat.lt_trans hij hj⟩)).1 =
          (o.result (o.sortedEntries.get ⟨j, hj⟩)).1) :
    (o.result (o.sortedEntries.get ⟨j, hj⟩)).2.2 ≤
      (o.result (o.sortedEntries.get ⟨i, Nat.lt_trans hij hj⟩)).2.2 := by
  have h := (sortedEntries_sorted o).rel_get_of_lt
    (a := ⟨i, Nat.lt_trans hij hj⟩) (b := ⟨j, hj⟩) hij
  rw [rankLE_iff] at h
  omega

/-- Witness for the amended C2 at `tieOutcome`, i = 1, j = 2. -/
theorem sortedEntries_ties_descending_unresolved_witness :
    (1 < 2 ∧ 2 < tieOutcome.sortedEntries.length ∧
      (tieOutcome.result (tieOutcome.sortedEntries.get ⟨1, by decide⟩)).1 =
      (tieOutcome.result (tieOutcome.sortedEntries.get ⟨2, by decide⟩)).1) ∧
    (tieOutcome.result (tieOutcome.sortedEntries.get ⟨2, by decide⟩)).2.2 ≤
      (tieOutcome.result (tieOutcome.sortedEntries.get ⟨1, by decide⟩)).2.2 :=
  ⟨⟨by decide, by decide, by decide⟩,
    sortedEntries_ties_descending_unresolved tieOutcome 1 2 (by decide)
      (by decide) (by decide)⟩

/-! ## C8: uninformative ballots -/

lemma ballotEvents_length_one {b : Ballot} (h : b.length = 1) :
    ballotEvents b = [] := by
  obtain ⟨g, rfl⟩ : ∃ g, b = [g] := by
    cases b with
    | nil => simp at h
    | cons g t =>
      cases t with
      | nil => exact ⟨g, rfl⟩
      | cons _ _ => simp at h
  simp [ballotEvents]

lemma recordBallots_single_groups (bs : List Ballot)
    (h : ∀ b ∈ bs, b.length = 1) : recordBallots [] bs = [] := by
  induction bs with
  | nil => rfl
  | cons b rest ih =>
    have hb : recordBallot [] b = [] := by
      unfold recordBallot
      rw [ballotEvents_length_one (h b (by simp))]
      rfl
    unfold recordBallots at ih ⊢
    simp only [List.foldl_cons, hb]
    exact ih fun b hb => h b (by simp [hb])

lemma blank_result (e : List Cand) (row : Cand) :
    (Outcome.mk e [] []).result row = (0, 0, (e.length : Int) - 1) := by
  unfold Outcome.result
  simp [dictGet]

/-- C8: if every ballot is a single rank group (including the case of no
ballots at all), `computemargins` leaves the margins table empty (and its
matrix step performs no assignment), `compute` returns the blank Outcome,
and `result()` gives every candidate (0, 0, n-1): all candidates tie. -/
theorem uninformative_ballots_all_tied (e : List Cand) (bs : List Ballot)
    (fuel : Nat) (h : ∀ b ∈ bs, b.length = 1) :
    Contest.computemargins ⟨e, bs, []⟩ = some (⟨e, bs, []⟩, []) ∧
    Contest.compute fuel ⟨e, bs, []⟩ = .ok ⟨e, [], []⟩ ∧
    ∀ row : Cand, (Outcome.mk e [] []).result row = (0, 0, (e.length : Int) - 1) := by
  refine ⟨?_, ?_, fun row => blank_result e row⟩
  · unfold Contest.computemargins
    simp only [recordBallots_single_groups bs h]
    rfl
  · unfold Contest.compute
    simp [groupPos, Outcome.blank]

/-- Witness for C8 with two candidates and one all-tied ballot. -/
theorem uninformative_ballots_all_tied_witness :
    (∀ b ∈ [[["A", "B"]]], (b : Ballot).length = 1) ∧
    Contest.computemargins ⟨["A", "B"], [[["A", "B"]]], []⟩ =
      some (⟨["A", "B"], [[["A", "B"]]], []⟩, []) ∧
    Contest.compute 5 ⟨["A", "B"], [[["A", "B"]]], []⟩ = .ok ⟨["A", "B"], [], []⟩ ∧
    ∀ row : Cand, (Outcome.mk ["A", "B"] [] []).result row = (0, 0, (2 : Int) - 1) :=
  ⟨by decide,
   (uninformative_ballots_all_tied ["A", "B"] [[["A", "B"]]] 5 (by decide)).1,
   (uninformative_ballots_all_tied ["A", "B"] [[["A", "B"]]] 5 (by decide)).2.1,
   (uninformative_ballots_all_tied ["A", "B"] [[["A", "B"]]] 5 (by decide)).2.2⟩

/-! ## Invariants of the `Outcome` relation -/

lemma contains_true_iff (l : List Cand) (a : Cand) :
    l.contains a = true ↔ a ∈ l := by simp

lemma contains_false_iff (l : List Cand) (a : Cand) :
    l.contains a = false ↔ a ∉ l := by simp

lemma mem_keyInsert {d : List Cand} {k x : Cand} :
    x ∈ keyInsert d k ↔ x ∈ d ∨ x = k := by
  unfold keyInsert
  split_ifs with h
  · constructor
    · exact Or.inl
    · rintro (hx | rfl)
      · exact hx
      · exact h
  · simp [List.mem_append]

lemma dictGet_dictAdd (d : Dict2) (k v k' : Cand) :
    dictGet (dictAdd d k v) k' =
      if k' = k then keyInsert (dictGet d k) v else dictGet d k' := by
  induction d with
  | nil =>
    by_cases h : k' = k
    · subst h; simp [dictAdd, dictGet, keyInsert]
    · have h2 : ¬(k = k') := fun hh => h hh.symm
      simp [dictAdd, dictGet, h, h2]
  | cons hd tl ih =>
    obtain ⟨a, l⟩ := hd
    by_cases hak : a = k
    · subst hak
      by_cases hk : k' = a
      · subst hk; simp [dictAdd, dictGet]
      · have h2 : ¬(a = k') := fun hh => hk hh.symm
        simp [dictAdd, dictGet, hk, h2]
    · by_cases hk : a = k'
      · subst hk
        simp [dictAdd, dictGet, hak]
      · simp [dictAdd, dictGet, hak, hk, ih]

/-- The two adjacency structures mirror each other: "a beats b" is in
`higher[b]` exactly when it is in `lower[a]`. -/
def MirrorInv (o : Outcome) : Prop :=
  ∀ a b : Cand, a ∈ dictGet o.higher b ↔ b ∈ dictGet o.lower a

/-- No self-pair is recorded in either adjacency structure. -/
def IrreflInv (o : Outcome) : Prop :=
  ∀ a : Cand, a ∉ dictGet o.higher a ∧ a ∉ dictGet o.lower a

/-- The `beats` relation never holds in both directions. -/
def AntisymInv (o : Outcome) : Prop :=
  ∀ a b : Cand, ¬(o.beats a b = true ∧ o.beats b a = true)

/-- The `beats` relation is transitively closed. -/
def TransClosed (o : Outcome) : Prop :=
  ∀ a b c : Cand, o.beats a b = true → o.beats b c = true → o.beats a c = true

/-- Proposition that "a beats b" is recorded somewhere, in `higher` or in `lower`. -/
def RecBeats (o : Outcome) (a b : Cand) : Prop :=
  a ∈ dictGet o.higher b ∨ b ∈ dictGet o.lower a

/-- The recorded relation (over both structures) is contradiction-free. -/
def ContraFree (o : Outcome) : Prop :=
  ∀ a b : Cand, RecBeats o a b → ¬RecBeats o b a

/-! ## C5: `compatible` -/

/-- C5: `compatible(A, B)` raises exactly when A = B; for A ≠ B, on an
Outcome whose `higher` and `lower` structures are consistent mirrors of a
contradiction-free relation, it returns the negation of `beats(B, A)`
(and in particular does not raise). -/
theorem compatible_eq_not_beats (o : Outcome) (A B : Cand)
    (hm : MirrorInv o) (_hc : ContraFree o) :
    (o.compatible A B = none ↔ A = B) ∧
    (A ≠ B → o.compatible A B = some (!o.beats B A)) := by
  constructor
  · by_cases h : A = B <;> simp [Outcome.compatible, h]
  · intro hne
    have hmem : (dictGet o.lower B).contains A = (dictGet o.higher A).contains B := by
      rcases Bool.eq_false_or_eq_true ((dictGet o.higher A).contains B) with h | h <;>
        rw [h]
      · rw [contains_true_iff] at h ⊢
        exact (hm B A).mp h
      · rw [contains_false_iff] at h ⊢
        exact fun hmemA => h ((hm B A).mpr hmemA)
    simp only [Outcome.compatible, if_neg hne, Outcome.beats, hmem]
    cases (dictGet o.higher A).contains B <;> rfl

/-- Witness for C5 at the blank outcome over A, B. -/
theorem compatible_eq_not_beats_witness :
    (((Outcome.mk ["A", "B"] [] []).compatible "A" "B" = none ↔ ("A" : Cand) = "B") ∧
      (("A" : Cand) ≠ "B" →
        (Outcome.mk ["A", "B"] [] []).compatible "A" "B" =
          some (!(Outcome.mk ["A", "B"] [] []).beats "B" "A"))) ∧
    (Outcome.mk ["A", "B"] [] []).compatible "A" "B" = some true :=
  ⟨compatible_eq_not_beats (Outcome.mk ["A", "B"] [] []) "A" "B"
      (fun a b => by simp [dictGet])
      (fun a b hab => by simp [RecBeats, dictGet] at hab),
   by decide⟩

/-! ## C9: accepting an already recorded fact -/

/-- C9: if `beats(A, B)` already holds in a contradiction-free Outcome,
then `accept(A, B)` returns without raising and leaves the outcome (both
adjacency structures, hence the whole beats relation) unchanged. -/
theorem accept_known_fact_noop (o : Outcome) (A B : Cand) (fuel : Nat)
    (hc : ContraFree o) (hb : o.beats A B = true) :
    Outcome.accept (fuel + 1) o A B = .ok o := by
  have hmemAB : A ∈ dictGet o.higher B := by
    unfold Outcome.beats at hb
    exact (contains_true_iff _ _).mp hb
  have hrec : RecBeats o A B := Or.inl hmemAB
  have hne : A ≠ B := by
    rintro rfl
    exact hc A A hrec hrec
  have hcomp : o.compatible A B = some true := by
    have h1 : (dictGet o.higher A).contains B = false := by
      rw [contains_false_iff]
      exact fun hmem => hc A B hrec (Or.inl hmem)
    have h2 : (dictGet o.lower B).contains A = false := by
      rw [contains_false_iff]
      exact fun hmem => hc A B hrec (Or.inr hmem)
    unfold Outcome.compatible
    rw [if_neg hne, h1, h2]
    rfl
  have hnil : ∀ f : Nat, acceptLoop f o [] = .ok o := by
    intro f; cases f <;> rfl
  unfold Outcome.accept
  simp only [acceptLoop, hcomp, hb, if_true, hnil]

lemma tieOutcome_contraFree : ContraFree tieOutcome := by
  have key : ∀ x y : Cand, RecBeats tieOutcome x y → x = "A" ∧ y = "B" := by
    intro x y h
    rcases h with h | h
    · simp only [tieOutcome, dictGet] at h
      split at h
      · next heq => simp_all
      · simp at h
    · simp only [tieOutcome, dictGet] at h
      split at h
      · next heq => simp_all
      · simp at h
  intro a b hab hba
  obtain ⟨rfl, rfl⟩ := key _ _ hab
  obtain ⟨h1, _⟩ := key _ _ hba
  simp at h1

/-- Witness for C9 at `tieOutcome` (where "A beats B" is recorded). -/
theorem accept_known_fact_noop_witness :
    Outcome.accept 6 tieOutcome "A" "B" = .ok tieOutcome :=
  accept_known_fact_noop tieOutcome "A" "B" 5 tieOutcome_contraFree (by decide)

/-! ## C3, C10: invariants of successful accept runs -/

lemma beats_record_iff (o : Outcome) (w l a b : Cand) :
    (o.record w l).beats a b = true ↔
      (o.beats a b = true ∨ (a = w ∧ b = l)) := by
  simp only [Outcome.beats, Outcome.record]
  rw [contains_true_iff, contains_true_iff, dictGet_dictAdd]
  by_cases hb : b = l
  · subst hb
    rw [if_pos rfl, mem_keyInsert]
    simp
  · rw [if_neg hb]
    simp [hb]

lemma record_higher_w (o : Outcome) {w l : Cand} (hne : w ≠ l) :
    dictGet (o.record w l).higher w = dictGet o.higher w := by
  simp only [Outcome.record]
  rw [dictGet_dictAdd, if_neg hne]

lemma record_lower_l (o : Outcome) {w l : Cand} (hne : w ≠ l) :
    dictGet (o.record w l).lower l = dictGet o.lower l := by
  simp only [Outcome.record]
  rw [dictGet_dictAdd, if_neg (fun h => hne h.symm)]

lemma mem_consequences_left {o : Outcome} {w l x : Cand}
    (hx : x ∈ dictGet o.higher w) (hnb : o.beats x l = false) :
    (x, l) ∈ consequences o w l := by
  unfold consequences
  exact List.mem_append_left _
    (List.mem_map.mpr ⟨x, List.mem_filter.mpr ⟨hx, by rw [hnb]; rfl⟩, rfl⟩)

lemma mem_consequences_right {o : Outcome} {w l y : Cand}
    (hy : y ∈ dictGet o.lower l) (hnb : o.beats w y = false) :
    (w, y) ∈ consequences o w l := by
  unfold consequences
  exact List.mem_append_right _
    (List.mem_map.mpr ⟨y, List.mem_filter.mpr ⟨hy, by rw [hnb]; rfl⟩, rfl⟩)

lemma compatible_some_true_mem {o : Outcome} {w l : Cand}
    (h : o.compatible w l = some true) :
    w ≠ l ∧ l ∉ dictGet o.higher w ∧ w ∉ dictGet o.lower l := by
  unfold Outcome.compatible at h
  by_cases he : w = l
  · rw [if_pos he] at h
    cases h
  · rw [if_neg he] at h
    have h2 := Option.some.inj h
    refine ⟨he, fun hmem => ?_, fun hmem => ?_⟩
    · rw [(contains_true_iff _ _).mpr hmem] at h2
      simp at h2
    · rw [(contains_true_iff _ _).mpr hmem] at h2
      simp at h2

/-- Every transitivity gap of the current relation is closed by a fact
still in the work-list. -/
def FactsClose (o : Outcome) (facts : List CPair) : Prop :=
  ∀ a b c : Cand, o.beats a b = true → o.beats b c = true →
    (o.beats a c = true ∨ (a, c) ∈ facts)

lemma factsClose_nil_trans {o : Outcome} (hf : FactsClose o []) :
    TransClosed o := by
  intro a b c h1 h2
  rcases hf a b c h1 h2 with h | h
  · exact h
  · cases h

lemma mirror_record {o : Outcome} {w l : Cand} (hm : MirrorInv o) :
    MirrorInv (o.record w l) := by
  intro a b
  simp only [Outcome.record]
  rw [dictGet_dictAdd, dictGet_dictAdd]
  by_cases hb : b = l <;> by_cases ha : a = w
  · subst hb; subst ha
    rw [if_pos rfl, if_pos rfl, mem_keyInsert, mem_keyInsert]
    simp
  · subst hb
    rw [if_pos rfl, if_neg ha, mem_keyInsert]
    simp only [ha, or_false]
    exact hm a b
  · subst ha
    rw [if_neg hb, if_pos rfl, mem_keyInsert]
    simp only [hb, or_false]
    exact hm a b
  · rw [if_neg hb, if_neg ha]
    exact hm a b

lemma irrefl_record {o : Outcome} {w l : Cand} (hi : IrreflInv o)
    (hne : w ≠ l) : IrreflInv (o.record w l) := by
  intro a
  simp only [Outcome.record]
  rw [dictGet_dictAdd, dictGet_dictAdd]
  constructor
  · by_cases ha : a = l
    · subst ha
      rw [if_pos rfl, mem_keyInsert]
      rintro (h | h)
      · exact (hi a).1 h
      · exact hne h.symm
    · rw [if_neg ha]
      exact (hi a).1
  · by_cases ha : a = w
    · subst ha
      rw [if_pos rfl, mem_keyInsert]
      rintro (h | h)
      · exact (hi a).2 h
      · exact hne h
    · rw [if_neg ha]
      exact (hi a).2

lemma antisym_record {o : Outcome} {w l : Cand} (ha : AntisymInv o)
    (hne : w ≠ l) (hrev : o.beats l w = false) :
    AntisymInv (o.record w l) := by
  intro a b hcon
  obtain ⟨h1, h2⟩ := hcon
  rw [beats_record_iff] at h1 h2
  rcases h1 with h1 | hn1
  · rcases h2 with h2 | hn2
    · exact ha a b ⟨h1, h2⟩
    · obtain ⟨rfl, rfl⟩ := hn2
      rw [hrev] at h1
      cases h1
  · obtain ⟨rfl, rfl⟩ := hn1
    rcases h2 with h2 | hn2
    · rw [hrev] at h2
      cases h2
    · exact hne hn2.2

lemma facts_close_record {o : Outcome} {w l : Cand} (hm : MirrorInv o)
    {rest : List CPair} (hf : FactsClose o ((w, l) :: rest)) (hne : w ≠ l) :
    FactsClose (o.record w l) (rest ++ consequences (o.record w l) w l) := by
  intro a b c hab hbc
  rw [beats_record_iff] at hab hbc
  rcases hab with hab | hn1
  · rcases hbc with hbc | hn2
    · rcases hf a b c hab hbc with h | h
      · exact Or.inl ((beats_record_iff o w l a c).mpr (Or.inl h))
      · rcases List.mem_cons.mp h with h | h
        · rw [Prod.mk.injEq] at h
          exact Or.inl ((beats_record_iff o w l a c).mpr (Or.inr h))
        · exact Or.inr (List.mem_append_left _ h)
    · obtain ⟨hbw, hcl⟩ := hn2
      rw [hbw] at hab
      rw [hcl]
      have haw : a ∈ dictGet (o.record w l).higher w := by
        rw [record_higher_w o hne]
        exact (contains_true_iff _ _).mp hab
      cases hlc : (o.record w l).beats a l with
      | false =>
        exact Or.inr (List.mem_append_right _ (mem_consequences_left haw hlc))
      | true => exact Or.inl rfl
  · obtain ⟨haw2, hbl⟩ := hn1
    rcases hbc with hbc | hn2
    · rw [hbl] at hbc
      rw [haw2]
      have hcl2 : c ∈ dictGet (o.record w l).lower l := by
        rw [record_lower_l o hne]
        exact (hm l c).mp ((contains_true_iff _ _).mp hbc)
      cases hwc : (o.record w l).beats w c with
      | false =>
        exact Or.inr (List.mem_append_right _ (mem_consequences_right hcl2 hwc))
      | true => exact Or.inl rfl
    · rw [hbl] at hn2
      exact absurd hn2.1.symm hne

lemma acceptLoop_wf (fuel : Nat) :
    ∀ (o : Outcome) (facts : List CPair) (o' : Outcome),
      MirrorInv o → IrreflInv o → AntisymInv o → FactsClose o facts →
      acceptLoop fuel o facts = .ok o' →
      MirrorInv o' ∧ IrreflInv o' ∧ AntisymInv o' ∧ TransClosed o' := by
  induction fuel with
  | zero =>
    intro o facts o' hm hi ha hf hrun
    cases facts with
    | nil =>
      obtain rfl : o = o' := Except.ok.inj hrun
      exact ⟨hm, hi, ha, factsClose_nil_trans hf⟩
    | cons p rest => cases hrun
  | succ n ih =>
    intro o facts o' hm hi ha hf hrun
    cases facts with
    | nil =>
      obtain rfl : o = o' := Except.ok.inj hrun
      exact ⟨hm, hi, ha, factsClose_nil_trans hf⟩
    | cons p rest =>
      obtain ⟨w, l⟩ := p
      simp only [acceptLoop] at hrun
      cases hcomp : o.compatible w l with
      | none => rw [hcomp] at hrun; simp at hrun
      | some bb =>
        cases bb with
        | false => rw [hcomp] at hrun; simp at hrun
        | true =>
          rw [hcomp] at hrun
          simp only [] at hrun
          obtain ⟨hne, hn1, hn2⟩ := compatible_some_true_mem hcomp
          by_cases hbeats : o.beats w l = true
          · rw [if_pos hbeats] at hrun
            have hfr : FactsClose o rest := by
              intro a b c h1 h2
              rcases hf a b c h1 h2 with h | h
              · exact Or.inl h
              · rcases List.mem_cons.mp h with h | h
                · rw [Prod.mk.injEq] at h
                  obtain ⟨rfl, rfl⟩ := h
                  exact Or.inl hbeats
                · exact Or.inr h
            exact ih o rest o' hm hi ha hfr hrun
          · rw [if_neg hbeats] at hrun
            have hrev : o.beats l w = false := by
              unfold Outcome.beats
              exact (contains_false_iff _ _).mpr hn1
            exact ih (o.record w l) _ o' (mirror_record hm)
              (irrefl_record hi hne) (antisym_record ha hne hrev)
              (facts_close_record hm hf hne) hrun

lemma blank_wf (e : List Cand) :
    MirrorInv ⟨e, [], []⟩ ∧ IrreflInv ⟨e, [], []⟩ ∧
      AntisymInv ⟨e, [], []⟩ ∧ TransClosed ⟨e, [], []⟩ := by
  refine ⟨fun a b => by simp [dictGet], fun a => by simp [dictGet],
    fun a b h => ?_, fun a b c h1 h2 => ?_⟩
  · obtain ⟨h1, _⟩ := h
    simp [Outcome.beats, dictGet] at h1
  · simp [Outcome.beats, dictGet] at h1

/-- Outcomes reachable from a blank Outcome through successful `accept`
calls on distinct candidates. -/
inductive Reachable : Outcome → Prop
  | blank (e : List Cand) : Reachable ⟨e, [], []⟩
  | step {o o' : Outcome} {a b : Cand} (fuel : Nat) (hr : Reachable o)
      (hne : a ≠ b) (hacc : Outcome.accept fuel o a b = .ok o') : Reachable o'

lemma reachable_wf {o : Outcome} (h : Reachable o) :
    MirrorInv o ∧ IrreflInv o ∧ AntisymInv o ∧ TransClosed o := by
  induction h with
  | blank e => exact blank_wf e
  | step fuel hr hne hacc ih =>
    obtain ⟨hm, hi, ha, ht⟩ := ih
    exact acceptLoop_wf fuel _ _ _ hm hi ha
      (fun a b c h1 h2 => Or.inl (ht a b c h1 h2)) hacc

/-- C3: every Outcome reachable from blank by successful `accept(A, B)`
calls with A ≠ B has an irreflexive, contradiction-free and transitively
closed beats relation. -/
theorem reachable_outcome_invariants {o : Outcome} (h : Reachable o) :
    (∀ a : Cand, o.beats a a = false) ∧
    (∀ a b : Cand, ¬(o.beats a b = true ∧ o.beats b a = true)) ∧
    (∀ a b c : Cand, o.beats a b = true → o.beats b c = true →
      o.beats a c = true) := by
  obtain ⟨hm, hi, ha, ht⟩ := reachable_wf h
  refine ⟨fun a => ?_, ha, ht⟩
  cases hb : o.beats a a
  · rfl
  · unfold Outcome.beats at hb
    exact absurd ((contains_true_iff _ _).mp hb) (hi a).1

/-- The outcome reached from blank over A, B by accepting "A beats B". -/
def pairOutcome : Outcome := ⟨["A", "B"], [("B", ["A"])], [("A", ["B"])]⟩

lemma pairOutcome_reachable : Reachable pairOutcome :=
  Reachable.step (o := ⟨["A", "B"], [], []⟩) (a := "A") (b := "B") 5
    (Reachable.blank ["A", "B"]) (by decide) (by decide)

/-- Witness for C3 at `pairOutcome`. -/
theorem reachable_outcome_invariants_witness :
    pairOutcome.beats "A" "A" = false ∧
    ¬(pairOutcome.beats "A" "B" = true ∧ pairOutcome.beats "B" "A" = true) ∧
    (pairOutcome.beats "A" "B" = true → pairOutcome.beats "B" "B" = true →
      pairOutcome.beats "A" "B" = true) :=
  have h := reachable_outcome_invariants pairOutcome_reachable
  ⟨h.1 "A", h.2.1 "A" "B", h.2.2 "A" "B" "B"⟩

/-- C10: on every reachable Outcome, `beats(A, A)` returns False and,
being defined for all arguments, never raises — unlike `compatible`,
which raises exactly on equal arguments; no self-pair is recorded in
either the `higher` or `lower` adjacency structure. -/
theorem reachable_no_self_pair {o : Outcome} (h : Reachable o) (a : Cand) :
    o.beats a a = false ∧ o.compatible a a = none ∧
    a ∉ dictGet o.higher a ∧ a ∉ dictGet o.lower a := by
  obtain ⟨hm, hi, ha, ht⟩ := reachable_wf h
  refine ⟨?_, by simp [Outcome.compatible], (hi a).1, (hi a).2⟩
  cases hb : o.beats a a
  · rfl
  · unfold Outcome.beats at hb
    exact absurd ((contains_true_iff _ _).mp hb) (hi a).1

/-- Witness for C10 at `pairOutcome`, candidate B. -/
theorem reachable_no_self_pair_witness :
    pairOutcome.beats "B" "B" = false ∧
    pairOutcome.compatible "B" "B" = none ∧
    "B" ∉ dictGet pairOutcome.higher "B" ∧
    "B" ∉ dictGet pairOutcome.lower "B" :=
  reachable_no_self_pair pairOutcome_reachable "B"

/-! ## C4: antisymmetry and presence of the margins table -/

/-- The `±1` written by one `applymargin` call. -/
def sgn (w : Bool) : Int := if w then 1 else -1

/-- Net contribution of a list of `applymargin` calls to one table key. -/
def countSigns : List (Cand × Cand × Bool) → CPair → Int
  | [], _ => 0
  | e :: rest, p => (if (e.1, e.2.1) = p then sgn e.2.2 else 0) + countSigns rest p

/-- Some `applymargin` call in the list writes to key `p`. -/
def touched (evs : List (Cand × Cand × Bool)) (p : CPair) : Prop :=
  ∃ e ∈ evs, (e.1, e.2.1) = p

/-- Signed number of occurrences of a candidate in a rank group. -/
def cnt (x : Cand) : List Cand → Int
  | [] => 0
  | y :: rest => (if y = x then 1 else 0) + cnt x rest

lemma countSigns_nil (p : CPair) : countSigns [] p = 0 := rfl

lemma countSigns_cons (e : Cand × Cand × Bool) (rest : List (Cand × Cand × Bool))
    (p : CPair) :
    countSigns (e :: rest) p =
      (if (e.1, e.2.1) = p then sgn e.2.2 else 0) + countSigns rest p := rfl

lemma cnt_nil (x : Cand) : cnt x [] = 0 := rfl

lemma cnt_cons (x y : Cand) (rest : List Cand) :
    cnt x (y :: rest) = (if y = x then 1 else 0) + cnt x rest := rfl

lemma mlookup_mset (m : Margins) (p : CPair) (v : Int) (q : CPair) :
    mlookup (mset m p v) q = if q = p then some v else mlookup m q := by
  induction m with
  | nil =>
    by_cases h : q = p
    · subst h; simp [mset, mlookup]
    · have h2 : ¬(p = q) := fun hh => h hh.symm
      simp [mset, mlookup, h, h2]
  | cons kv rest ih =>
    obtain ⟨r, w⟩ := kv
    by_cases hr : r = p
    · subst hr
      by_cases hq : q = r
      · subst hq; simp [mset, mlookup]
      · have h2 : ¬(r = q) := fun hh => hq hh.symm
        simp [mset, mlookup, hq, h2]
    · by_cases hq : r = q
      · subst hq
        simp [mset, mlookup, hr]
      · simp [mset, mlookup, hr, hq, ih]

lemma mget_mset (m : Margins) (p : CPair) (v : Int) (q : CPair) :
    mget (mset m p v) q = if q = p then v else mget m q := by
  unfold mget
  rw [mlookup_mset]
  split_ifs <;> rfl

lemma mget_applyEvent (m : Margins) (e : Cand × Cand × Bool) (q : CPair) :
    mget (applyEvent m e) q =
      mget m q + (if (e.1, e.2.1) = q then sgn e.2.2 else 0) := by
  unfold applyEvent applymargin
  rw [mget_mset]
  by_cases h : q = (e.1, e.2.1)
  · rw [if_pos h, if_pos h.symm, h]
    unfold sgn
    split_ifs <;> ring
  · rw [if_neg h, if_neg (fun hh => h hh.symm)]
    ring

lemma mpresent_applyEvent (m : Margins) (e : Cand × Cand × Bool) (q : CPair) :
    mpresent (applyEvent m e) q ↔ ((e.1, e.2.1) = q ∨ mpresent m q) := by
  unfold applyEvent applymargin mpresent
  rw [mlookup_mset]
  by_cases h : q = (e.1, e.2.1)
  · simp [h]
  · have h2 : ¬((e.1, e.2.1) = q) := fun hh => h hh.symm
    simp [h, h2]

lemma mget_foldl_events (evs : List (Cand × Cand × Bool)) :
    ∀ (m : Margins) (p : CPair),
      mget (evs.foldl applyEvent m) p = mget m p + countSigns evs p := by
  induction evs with
  | nil => intro m p; simp [countSigns_nil]
  | cons e rest ih =>
    intro m p
    rw [List.foldl_cons, ih (applyEvent m e) p, mget_applyEvent, countSigns_cons]
    ring

lemma mpresent_foldl_events (evs : List (Cand × Cand × Bool)) :
    ∀ (m : Margins) (p : CPair),
      mpresent (evs.foldl applyEvent m) p ↔ (mpresent m p ∨ touched evs p) := by
  induction evs with
  | nil => intro m p; simp [touched]
  | cons e rest ih =>
    intro m p
    rw [List.foldl_cons, ih (applyEvent m e) p, mpresent_applyEvent]
    unfold touched
    simp only [List.mem_cons]
    constructor
    · rintro ((h | h) | ⟨x, hx, hk⟩)
      · exact Or.inr ⟨e, Or.inl rfl, h⟩
      · exact Or.inl h
      · exact Or.inr ⟨x, Or.inr hx, hk⟩
    · rintro (h | ⟨x, hx | hx, hk⟩)
      · exact Or.inl (Or.inr h)
      · subst hx; exact Or.inl (Or.inl hk)
      · exact Or.inr ⟨x, hx, hk⟩

lemma mget_recordBallots (bs : List Ballot) :
    ∀ (m : Margins) (p : CPair),
      mget (recordBallots m bs) p =
        mget m p + (bs.map fun b => countSigns (ballotEvents b) p).sum := by
  induction bs with
  | nil => intro m p; simp [recordBallots]
  | cons b rest ih =>
    intro m p
    unfold recordBallots at ih ⊢
    rw [List.foldl_cons, ih (recordBallot m b) p]
    unfold recordBallot
    rw [mget_foldl_events]
    simp only [List.map_cons, List.sum_cons]
    ring

lemma mpresent_recordBallots (bs : List Ballot) :
    ∀ (m : Margins) (p : CPair),
      mpresent (recordBallots m bs) p ↔
        (mpresent m p ∨ ∃ b ∈ bs, touched (ballotEvents b) p) := by
  induction bs with
  | nil => intro m p; simp [recordBallots]
  | cons b rest ih =>
    intro m p
    unfold recordBallots at ih ⊢
    rw [List.foldl_cons, ih (recordBallot m b) p]
    unfold recordBallot
    rw [mpresent_foldl_events]
    simp only [List.mem_cons]
    constructor
    · rintro ((h | h) | ⟨x, hx, ht⟩)
      · exact Or.inl h
      · exact Or.inr ⟨b, Or.inl rfl, h⟩
      · exact Or.inr ⟨x, Or.inr hx, ht⟩
    · rintro (h | ⟨x, hx | hx, ht⟩)
      · exact Or.inl (Or.inl h)
      · subst hx; exact Or.inl (Or.inr ht)
      · exact Or.inr ⟨x, hx, ht⟩

lemma touched_ballotEvents (b : Ballot) (A B : Cand) :
    touched (ballotEvents b) (A, B) ↔
      ∃ p ∈ b.enum, ∃ q ∈ b.enum, q.1 ≠ p.1 ∧ A ∈ p.2 ∧ B ∈ q.2 := by
  unfold touched ballotEvents
  constructor
  · rintro ⟨e, he, hkey⟩
    rw [List.mem_flatMap] at he
    obtain ⟨p, hp, he⟩ := he
    rw [List.mem_flatMap] at he
    obtain ⟨row, hrow, he⟩ := he
    rw [List.mem_flatMap] at he
    obtain ⟨q, hq, he⟩ := he
    by_cases hpq : q.1 = p.1
    · rw [if_pos hpq] at he; cases he
    · rw [if_neg hpq] at he
      rw [List.mem_map] at he
      obtain ⟨col, hcol, rfl⟩ := he
      rw [Prod.mk.injEq] at hkey
      obtain ⟨rfl, rfl⟩ := hkey
      exact ⟨p, hp, q, hq, hpq, hrow, hcol⟩
  · rintro ⟨p, hp, q, hq, hpq, hA, hB⟩
    refine ⟨(A, B, decide (p.1 < q.1)), ?_, rfl⟩
    rw [List.mem_flatMap]
    refine ⟨p, hp, ?_⟩
    rw [List.mem_flatMap]
    refine ⟨A, hA, ?_⟩
    rw [List.mem_flatMap]
    refine ⟨q, hq, ?_⟩
    rw [if_neg hpq]
    exact List.mem_map.mpr ⟨B, hB, rfl⟩

lemma countSigns_append (l1 l2 : List (Cand × Cand × Bool)) (p : CPair) :
    countSigns (l1 ++ l2) p = countSigns l1 p + countSigns l2 p := by
  induction l1 with
  | nil => simp [countSigns_nil]
  | cons e rest ih =>
    simp only [List.cons_append, countSigns_cons, ih]
    ring

lemma countSigns_flatMap {α : Type} (l : List α)
    (f : α → List (Cand × Cand × Bool)) (p : CPair) :
    countSigns (l.flatMap f) p = (l.map fun x => countSigns (f x) p).sum := by
  induction l with
  | nil => simp [countSigns_nil]
  | cons x rest ih =>
    rw [List.flatMap_cons, countSigns_append, ih]
    simp

lemma countSigns_map_cols (row : Cand) (g : List Cand) (w : Bool) (A B : Cand) :
    countSigns (g.map fun col => (row, col, w)) (A, B) =
      if row = A then cnt B g * sgn w else 0 := by
  induction g with
  | nil => simp [countSigns_nil, cnt_nil]
  | cons col rest ih =>
    rw [List.map_cons, countSigns_cons, ih, cnt_cons]
    by_cases hr : row = A
    · subst hr
      by_cases hc : col = B
      · subst hc
        simp [Prod.mk.injEq]
        ring
      · simp [Prod.mk.injEq, hc]
    · simp [Prod.mk.injEq, hr]

lemma sum_map_ite_zero {α : Type} (l : List α) (c : Prop) [Decidable c]
    (h : α → Int) :
    (l.map fun x => if c then 0 else h x).sum =
      if c then 0 else (l.map h).sum := by
  split_ifs with hc <;> simp

lemma sum_map_cnt (l : List Cand) (A : Cand) (c : Int) :
    (l.map fun x => if x = A then c else 0).sum = cnt A l * c := by
  induction l with
  | nil => simp [cnt]
  | cons x rest ih =>
    rw [List.map_cons, List.sum_cons, ih, cnt_cons]
    split_ifs <;> ring

lemma sum_map_swap {α β : Type} (l1 : List α) (l2 : List β) (g : α → β → Int) :
    (l1.map fun x => (l2.map (g x)).sum).sum =
      (l2.map fun y => (l1.map fun x => g x y).sum).sum := by
  induction l1 with
  | nil => simp
  | cons x xs ih =>
    simp only [List.map_cons, List.sum_cons, ih]
    rw [← List.sum_map_add]

lemma sum_map_neg {α : Type} (l : List α) (f : α → Int) :
    (l.map fun x => -(f x)).sum = -((l.map f).sum) := by
  induction l with
  | nil => simp
  | cons x xs ih => simp [ih]; ring

/-- The contribution of the pair of ranks `x`, `y` of a ballot to
table key `(A, B)`. -/
def pairContrib (A B : Cand) (x y : Nat × Group) : Int :=
  if y.1 = x.1 then 0
  else cnt A x.2 * (cnt B y.2 * sgn (decide (x.1 < y.1)))

lemma countSigns_ballotEvents (b : Ballot) (A B : Cand) :
    countSigns (ballotEvents b) (A, B) =
      (b.enum.map fun x => (b.enum.map fun y => pairContrib A B x y).sum).sum := by
  unfold ballotEvents
  rw [countSigns_flatMap]
  congr 1
  apply List.map_congr_left
  intro x hx
  rw [countSigns_flatMap]
  have inner : ∀ row : Cand,
      countSigns (b.enum.flatMap fun q =>
        if q.1 = x.1 then []
        else q.2.map fun col => (row, col, decide (x.1 < q.1))) (A, B) =
      (b.enum.map fun q =>
        if q.1 = x.1 then 0
        else if row = A then cnt B q.2 * sgn (decide (x.1 < q.1)) else 0).sum := by
    intro row
    rw [countSigns_flatMap]
    congr 1
    apply List.map_congr_left
    intro q hq
    by_cases hqx : q.1 = x.1
    · simp [hqx, countSigns]
    · rw [if_neg hqx, if_neg hqx, countSigns_map_cols]
  calc (x.2.map fun row =>
          countSigns (b.enum.flatMap fun q =>
            if q.1 = x.1 then []
            else q.2.map fun col => (row, col, decide (x.1 < q.1))) (A, B)).sum
      = (x.2.map fun row => (b.enum.map fun q =>
          if q.1 = x.1 then 0
          else if row = A then cnt B q.2 * sgn (decide (x.1 < q.1)) else 0).sum).sum := by
        congr 1
        exact List.map_congr_left fun row _ => inner row
    _ = (b.enum.map fun q => (x.2.map fun row =>
          if q.1 = x.1 then 0
          else if row = A then cnt B q.2 * sgn (decide (x.1 < q.1)) else 0).sum).sum := by
        exact sum_map_swap _ _ _
    _ = (b.enum.map fun q => pairContrib A B x q).sum := by
        congr 1
        apply List.map_congr_left
        intro q hq
        rw [sum_map_ite_zero]
        unfold pairContrib
        by_cases hqx : q.1 = x.1
        · rw [if_pos hqx, if_pos hqx]
        · rw [if_neg hqx, if_neg hqx, sum_map_cnt]

lemma sgn_flip {i j : Nat} (h : i ≠ j) :
    sgn (decide (j < i)) = -sgn (decide (i < j)) := by
  rcases Nat.lt_trichotomy i j with hlt | heq | hgt
  · simp [sgn, Nat.not_lt.mpr (Nat.le_of_lt hlt), hlt]
  · exact absurd heq h
  · simp [sgn, Nat.not_lt.mpr (Nat.le_of_lt hgt), hgt]

lemma pairContrib_flip (A B : Cand) (x y : Nat × Group) :
    pairContrib B A x y = -pairContrib A B y x := by
  unfold pairContrib
  by_cases h : y.1 = x.1
  · rw [if_pos h, if_pos h.symm]
    ring
  · rw [if_neg h, if_neg (fun hh => h hh.symm)]
    rw [sgn_flip (fun hh => h hh.symm)]
    ring

lemma countSigns_ballot_antisym (b : Ballot) (A B : Cand) :
    countSigns (ballotEvents b) (B, A) = -countSigns (ballotEvents b) (A, B) := by
  rw [countSigns_ballotEvents, countSigns_ballotEvents]
  calc (b.enum.map fun x => (b.enum.map fun y => pairContrib B A x y).sum).sum
      = (b.enum.map fun x => (b.enum.map fun y => -pairContrib A B y x).sum).sum := by
        congr 1
        apply List.map_congr_left
        intro x _
        congr 1
        exact List.map_congr_left fun y _ => pairContrib_flip A B x y
    _ = (b.enum.map fun x => -((b.enum.map fun y => pairContrib A B y x).sum)).sum := by
        congr 1
        exact List.map_congr_left fun x _ => sum_map_neg _ _
    _ = -((b.enum.map fun x => (b.enum.map fun y => pairContrib A B y x).sum).sum) := by
        exact sum_map_neg _ _
    _ = -((b.enum.map fun x => (b.enum.map fun y => pairContrib A B x y).sum).sum) := by
        exact congrArg (fun z : Int => -z)
          (sum_map_swap b.enum b.enum (pairContrib A B)).symm

/-- C4: after the margins scan, a pair (A, B) is present iff (B, A) is
present, a pair is present iff some ballot puts A and B into two
different rank groups, and present pairs satisfy
`margins[(A,B)] = -margins[(B,A)]`. -/
theorem margins_antisymmetry (entries : List Cand) (bs : List Ballot)
    (_hsub : ∀ b ∈ bs, ∀ g ∈ b, ∀ x ∈ g, x ∈ entries)
    (_hdisj : ∀ b ∈ bs, ∀ p ∈ b.enum, ∀ q ∈ b.enum, p.1 ≠ q.1 →
      ∀ x ∈ p.2, x ∉ q.2)
    (A B : Cand) :
    (mpresent (recordBallots [] bs) (A, B) ↔
      mpresent (recordBallots [] bs) (B, A)) ∧
    (mpresent (recordBallots [] bs) (A, B) ↔
      ∃ b ∈ bs, ∃ p ∈ b.enum, ∃ q ∈ b.enum, q.1 ≠ p.1 ∧ A ∈ p.2 ∧ B ∈ q.2) ∧
    (mpresent (recordBallots [] bs) (A, B) →
      mget (recordBallots [] bs) (A, B) = -mget (recordBallots [] bs) (B, A)) := by
  have hbase : ∀ p : CPair, ¬mpresent ([] : Margins) p := fun p h => h rfl
  have hpres : ∀ X Y : Cand, mpresent (recordBallots [] bs) (X, Y) ↔
      ∃ b ∈ bs, touched (ballotEvents b) (X, Y) := by
    intro X Y
    rw [mpresent_recordBallots]
    simp only [hbase, false_or]
  refine ⟨?_, ?_, ?_⟩
  · rw [hpres, hpres]
    constructor <;>
    · rintro ⟨b, hb, ht⟩
      refine ⟨b, hb, ?_⟩
      rw [touched_ballotEvents] at ht ⊢
      obtain ⟨p, hp, q, hq, hpq, h1, h2⟩ := ht
      exact ⟨q, hq, p, hp, fun hh => hpq hh.symm, h2, h1⟩
  · rw [hpres]
    constructor
    · rintro ⟨b, hb, ht⟩
      exact ⟨b, hb, (touched_ballotEvents b A B).mp ht⟩
    · rintro ⟨b, hb, ht⟩
      exact ⟨b, hb, (touched_ballotEvents b A B).mpr ht⟩
  · intro _
    rw [mget_recordBallots, mget_recordBallots]
    have h0 : mget ([] : Margins) (A, B) = 0 := rfl
    have h0' : mget ([] : Margins) (B, A) = 0 := rfl
    rw [h0, h0', zero_add, zero_add]
    have : (bs.map fun b => countSigns (ballotEvents b) (B, A)) =
        bs.map fun b => -countSigns (ballotEvents b) (A, B) :=
      List.map_congr_left fun b _ => countSigns_ballot_antisym b A B
    rw [this, sum_map_neg, neg_neg]

/-- Witness for C4 at the single two-group ballot "A then B". -/
theorem margins_antisymmetry_witness :
    ((∀ b ∈ [[["A"], ["B"]]], ∀ g ∈ (b : Ballot), ∀ x ∈ g, x ∈ ["A", "B"]) ∧
     (∀ b ∈ [[["A"], ["B"]]], ∀ p ∈ (b : Ballot).enum, ∀ q ∈ b.enum,
        p.1 ≠ q.1 → ∀ x ∈ p.2, x ∉ q.2)) ∧
    ((mpresent (recordBallots [] [[["A"], ["B"]]]) ("A", "B") ↔
        mpresent (recordBallots [] [[["A"], ["B"]]]) ("B", "A")) ∧
     (mpresent (recordBallots [] [[["A"], ["B"]]]) ("A", "B") →
        mget (recordBallots [] [[["A"], ["B"]]]) ("A", "B") =
          -mget (recordBallots [] [[["A"], ["B"]]]) ("B", "A"))) :=
  ⟨⟨by decide, by decide⟩,
   (margins_antisymmetry ["A", "B"] [[["A"], ["B"]]] (by decide) (by decide)
       "A" "B").1,
   (margins_antisymmetry ["A", "B"] [[["A"], ["B"]]] (by decide) (by decide)
       "A" "B").2.2⟩

/-! ## C6: the leave-one-out heuristic -/

/-- The leave-one-out heuristic in the words of the specification: for
each pair P in the remaining (compatible) set, all pairs except P are
accepted into a fresh clone of the pre-level Outcome; the pairs whose
omission makes the attempt succeed form the exclusion set; if that set
is empty or is the entire remaining set, the level is abandoned with no
facts added; otherwise the non-excluded pairs are re-attempted as a
single batch on a fresh clone, adopted on success and abandoned on a
renewed contradiction. -/
def leaveOneOutSpec (fuel : Nat) (o : Outcome) (compatls : List CPair) : Outcome :=
  let excluded := compatls.filter fun P =>
    isOkE (acceptList fuel o (compatls.filter fun t => t ≠ P))
  if excluded = [] ∨ excluded = compatls then o
  else
    match acceptList fuel o (compatls.filter fun t => t ∉ excluded) with
    | .ok newout => newout
    | .error _ => o

lemma filter_not_mem_filter (l : List CPair) (f : CPair → Bool) :
    (l.filter fun t => t ∉ l.filter f) = l.filter fun t => !f t := by
  apply List.filter_congr
  intro t ht
  by_cases hf : f t = true
  · have hmem : t ∈ l.filter f := List.mem_filter.mpr ⟨ht, hf⟩
    simp [hmem, hf]
  · have hf2 : f t = false := by
      cases hfc : f t
      · rfl
      · exact absurd hfc hf
    have hmem : t ∉ l.filter f := fun hmem => hf (List.mem_filter.mp hmem).2
    simp [hmem, hf2]

lemma filter_neg_eq_nil_iff (l : List CPair) (f : CPair → Bool) :
    (l.filter fun t => !f t) = [] ↔ l.filter f = l := by
  rw [List.filter_eq_nil_iff, List.filter_eq_self]
  constructor <;> intro h a ha <;> have h2 := h a ha
  · cases hfc : f a
    · rw [hfc] at h2
      exact absurd rfl h2
    · rfl
  · rw [h2]
    simp

lemma filter_neg_length_iff (l : List CPair) (f : CPair → Bool) :
    (l.filter fun t => !f t).length = l.length ↔ l.filter f = [] := by
  rw [List.filter_length_eq_length, List.filter_eq_nil_iff]
  constructor <;> intro h a ha <;> have h2 := h a ha
  · intro hfa
    rw [hfa] at h2
    cases h2
  · cases hfc : f a
    · rfl
    · exact absurd hfc h2

lemma processLevel_fail_spec (fuel : Nat) (o : Outcome)
    (ls compatls : List CPair)
    (hcf : compatFilter o ls = some compatls)
    (hfail : isOkE (acceptList fuel o compatls) = false) :
    processLevel fuel o ls = .ok (leaveOneOutSpec fuel o compatls) := by
  obtain ⟨e, he⟩ : ∃ e, acceptList fuel o compatls = .error e := by
    cases hacc : acceptList fuel o compatls with
    | ok newout =>
      rw [hacc] at hfail
      cases hfail
    | error e => exact ⟨e, rfl⟩
  simp only [processLevel, hcf, he]
  simp only [leaveOneOutSpec]
  rw [filter_not_mem_filter compatls
    (fun P => isOkE (acceptList fuel o (compatls.filter fun t => t ≠ P)))]
  have hcond : ((compatls.filter fun t =>
        !isOkE (acceptList fuel o (compatls.filter fun u => u ≠ t))).length = 0 ∨
      (compatls.filter fun t =>
        !isOkE (acceptList fuel o (compatls.filter fun u => u ≠ t))).length =
        compatls.length) ↔
      ((compatls.filter fun P =>
          isOkE (acceptList fuel o (compatls.filter fun t => t ≠ P))) = [] ∨
       (compatls.filter fun P =>
          isOkE (acceptList fuel o (compatls.filter fun t => t ≠ P))) = compatls) := by
    rw [List.length_eq_zero, filter_neg_eq_nil_iff, filter_neg_length_iff]
    exact Or.comm
  by_cases hc : (compatls.filter fun P =>
      isOkE (acceptList fuel o (compatls.filter fun t => t ≠ P))) = [] ∨
      (compatls.filter fun P =>
        isOkE (acceptList fuel o (compatls.filter fun t => t ≠ P))) = compatls
  · rw [if_pos (hcond.mpr hc), if_pos hc]
  · rw [if_neg (fun hh => hc (hcond.mp hh)), if_neg hc]
    cases hng : acceptList fuel o (compatls.filter fun t =>
        !isOkE (acceptList fuel o (compatls.filter fun u => u ≠ t))) <;> rfl

/-- C6: when the bulk accept of a margin level raises a contradiction,
`compute`'s level body resolves the level exactly as the spec's
leave-one-out description: pairs whose omission lets the batch succeed
are excluded; an empty or total exclusion set abandons the level; else
the non-excluded pairs are re-attempted as one batch on a fresh clone,
adopted on success and abandoned on a renewed contradiction. -/
theorem processLevel_leave_one_out (fuel : Nat) (o : Outcome)
    (ls compatls : List CPair)
    (hcf : compatFilter o ls = some compatls)
    (hfail : isOkE (acceptList fuel o compatls) = false) :
    processLevel fuel o ls = .ok (leaveOneOutSpec fuel o compatls) :=
  processLevel_fail_spec fuel o ls compatls hcf hfail

/-- The blank outcome over the three-cycle candidates. -/
def cycleBlank : Outcome := ⟨["A", "B", "C"], [], []⟩

/-- The three equal-margin facts of a perfect cycle A>B>C>A. -/
def cyclePairs : List CPair := [("A", "B"), ("B", "C"), ("C", "A")]

/-- Witness for C6 at the contradictory equal-margin three-cycle. -/
theorem processLevel_leave_one_out_witness :
    (compatFilter cycleBlank cyclePairs = some cyclePairs ∧
     isOkE (acceptList 30 cycleBlank cyclePairs) = false) ∧
    processLevel 30 cycleBlank cyclePairs =
      .ok (leaveOneOutSpec 30 cycleBlank cyclePairs) :=
  ⟨⟨by decide, by decide⟩,
   processLevel_leave_one_out 30 cycleBlank cyclePairs cyclePairs
     (by decide) (by decide)⟩

/-! ## C7: positive margins, descending levels -/

/-- One margin level as the spec describes it: discard the pairs that
are incompatible with the outcome built from larger margins, bulk-accept
the rest into a clone which becomes the current Outcome exactly when no
contradiction is raised, and otherwise fall back to the leave-one-out
heuristic. -/
def processLevelSpec (fuel : Nat) (o : Outcome) (ls : List CPair) :
    Except Unit Outcome :=
  match compatFilter o ls with
  | none => .error ()
  | some kept =>
    match acceptList fuel o kept with
    | .ok newout => .ok newout
    | .error _ => .ok (leaveOneOutSpec fuel o kept)

lemma processLevel_eq_spec (fuel : Nat) (o : Outcome) (ls : List CPair) :
    processLevel fuel o ls = processLevelSpec fuel o ls := by
  cases hcf : compatFilter o ls with
  | none => simp [processLevel, processLevelSpec, hcf]
  | some kept =>
    cases hacc : acceptList fuel o kept with
    | ok newout => simp [processLevel, processLevelSpec, hcf, hacc]
    | error e =>
      rw [processLevel_fail_spec fuel o ls kept hcf (by rw [hacc]; rfl)]
      simp [processLevelSpec, hcf, hacc]

/-- The distinct margin values present in the level dict, sorted in
descending order. -/
def descKeys (dic : LevelDict) : List Int :=
  List.insertionSort (fun a b : Int => b ≤ a) (dic.map (·.1))

/-- Definition of `compute` as the spec describes it (C7): collect the strictly
positive margins grouped by value, start from a blank Outcome and fold
the level body over the present margin values in strictly descending
order. -/
def computeSpecDesc (fuel : Nat) (c : Contest) : Except Unit Outcome :=
  let dic := groupPos c.margins
  (descKeys dic).foldlM
    (fun o v => processLevelSpec fuel o (dicGetLs dic v)) (Outcome.blank c)

lemma foldl_groupStep_filter (m : Margins) :
    ∀ dic : LevelDict,
      (m.filter fun kv => 0 < kv.2).foldl
          (fun dic kv => if kv.2 ≤ 0 then dic else dictAddPair dic kv.2 kv.1) dic =
        m.foldl (fun dic kv => if kv.2 ≤ 0 then dic else dictAddPair dic kv.2 kv.1)
          dic := by
  induction m with
  | nil => intro dic; rfl
  | cons kv rest ih =>
    intro dic
    simp only [List.filter_cons, List.foldl_cons]
    by_cases hv : kv.2 ≤ 0
    · have hv2 : ¬(0 < kv.2) := by omega
      simp only [hv2, decide_False, if_false, if_pos hv]
      exact ih dic
    · have hv2 : 0 < kv.2 := by omega
      simp only [hv2, decide_True, if_true, List.foldl_cons, if_neg hv]
      exact ih _

lemma groupPos_filter_pos (m : Margins) :
    groupPos (m.filter fun kv => 0 < kv.2) = groupPos m := by
  unfold groupPos
  exact foldl_groupStep_filter m []

lemma mem_dictAddPair (dic : LevelDict) (v : Int) (p : CPair) :
    ∀ kv ∈ dictAddPair dic v p, (kv.1 = v ∧ kv.2 ≠ []) ∨ kv ∈ dic := by
  induction dic with
  | nil =>
    intro kv hkv
    simp only [dictAddPair, List.mem_singleton] at hkv
    rw [hkv]
    exact Or.inl ⟨rfl, by simp⟩
  | cons hd tl ih =>
    intro kv hkv
    obtain ⟨k, l⟩ := hd
    by_cases hk : k = v
    · subst hk
      simp only [dictAddPair, if_pos rfl] at hkv
      cases hkv with
      | head => exact Or.inl ⟨rfl, by simp⟩
      | tail b hkv => exact Or.inr (List.mem_cons_of_mem _ hkv)
    · simp only [dictAddPair, if_neg hk] at hkv
      cases hkv with
      | head => exact Or.inr (List.mem_cons_self _ _)
      | tail b hkv =>
        rcases ih kv hkv with h | h
        · exact Or.inl h
        · exact Or.inr (List.mem_cons_of_mem _ h)

lemma dictAddPair_map_fst (dic : LevelDict) (v : Int) (p : CPair) :
    (dictAddPair dic v p).map (·.1) =
      if v ∈ dic.map (·.1) then dic.map (·.1) else dic.map (·.1) ++ [v] := by
  induction dic with
  | nil => simp [dictAddPair]
  | cons hd tl ih =>
    obtain ⟨k, l⟩ := hd
    by_cases hk : k = v
    · subst hk
      simp [dictAddPair]
    · simp only [dictAddPair, if_neg hk, List.map_cons, ih]
      have hk2 : ¬(v = k) := fun h => hk h.symm
      by_cases hmem : v ∈ tl.map (·.1)
      · simp [hmem, hk2]
      · simp [hmem, hk2]

lemma groupPos_props (m : Margins) :
    ∀ dic : LevelDict,
      (∀ kv ∈ dic, kv.2 ≠ [] ∧ 1 ≤ kv.1) → (dic.map (·.1)).Nodup →
      (∀ kv ∈ m.foldl
          (fun dic kv => if kv.2 ≤ 0 then dic else dictAddPair dic kv.2 kv.1) dic,
        kv.2 ≠ [] ∧ 1 ≤ kv.1) ∧
      ((m.foldl
          (fun dic kv => if kv.2 ≤ 0 then dic else dictAddPair dic kv.2 kv.1)
          dic).map (·.1)).Nodup := by
  induction m with
  | nil => intro dic h1 h2; exact ⟨h1, h2⟩
  | cons kv rest ih =>
    intro dic h1 h2
    rw [List.foldl_cons]
    by_cases hv : kv.2 ≤ 0
    · rw [if_pos hv]
      exact ih dic h1 h2
    · rw [if_neg hv]
      apply ih
      · intro kv' hkv'
        rcases mem_dictAddPair dic kv.2 kv.1 kv' hkv' with ⟨hk, hne⟩ | hmem
        · exact ⟨hne, by omega⟩
        · exact h1 kv' hmem
      · rw [dictAddPair_map_fst]
        by_cases hmem : kv.2 ∈ dic.map (·.1)
        · rw [if_pos hmem]; exact h2
        · rw [if_neg hmem]
          rw [List.nodup_append]
          exact ⟨h2, List.nodup_singleton _, by simpa using hmem⟩

lemma foldl_max_init_le (l : LevelDict) :
    ∀ a : Int, a ≤ l.foldl (fun a x => max a x.1) a := by
  induction l with
  | nil => intro a; exact le_refl a
  | cons hd tl ih =>
    intro a
    rw [List.foldl_cons]
    exact le_trans (le_max_left a hd.1) (ih (max a hd.1))

lemma mem_le_foldl_max (l : LevelDict) :
    ∀ (a : Int), ∀ kv ∈ l, kv.1 ≤ l.foldl (fun a x => max a x.1) a := by
  induction l with
  | nil => intro a kv hkv; cases hkv
  | cons hd tl ih =>
    intro a kv hkv
    rw [List.foldl_cons]
    rcases List.mem_cons.mp hkv with rfl | hkv
    · exact le_trans (le_max_right a kv.1) (foldl_max_init_le tl _)
    · exact ih _ kv hkv

lemma le_maxKey (dic : LevelDict) : ∀ kv ∈ dic, kv.1 ≤ maxKey dic := by
  cases dic with
  | nil => intro kv hkv; cases hkv
  | cons hd tl =>
    intro kv hkv
    unfold maxKey
    rcases List.mem_cons.mp hkv with rfl | hkv
    · exact foldl_max_init_le tl kv.1
    · exact mem_le_foldl_max tl hd.1 kv hkv

lemma dicGetLs_eq_nil_of_not_mem (dic : LevelDict) (v : Int)
    (h : v ∉ dic.map (·.1)) : dicGetLs dic v = [] := by
  induction dic with
  | nil => rfl
  | cons hd tl ih =>
    rw [List.map_cons, List.mem_cons] at h
    push_neg at h
    unfold dicGetLs
    rw [if_neg (fun hh => h.1 hh.symm)]
    exact ih h.2

lemma dicGetLs_ne_nil_of_mem (dic : LevelDict) (v : Int)
    (hvals : ∀ kv ∈ dic, kv.2 ≠ []) (hmem : v ∈ dic.map (·.1)) :
    dicGetLs dic v ≠ [] := by
  induction dic with
  | nil => cases hmem
  | cons hd tl ih =>
    unfold dicGetLs
    by_cases hk : hd.1 = v
    · rw [if_pos hk]
      exact hvals hd (List.mem_cons_self _ _)
    · rw [if_neg hk]
      rw [List.map_cons, List.mem_cons] at hmem
      rcases hmem with rfl | hmem
      · exact absurd rfl hk
      · exact ih (fun kv hkv => hvals kv (List.mem_cons_of_mem _ hkv)) hmem

/-- The margin levels `n, ..., 1` that actually hold facts, in
descending order. -/
def presentLevels (dic : LevelDict) : Nat → List Int
  | 0 => []
  | n + 1 =>
    (if dicGetLs dic ((n + 1 : Nat) : Int) = [] then []
     else [((n + 1 : Nat) : Int)]) ++ presentLevels dic n

lemma levelsLoop_eq_foldlM (fuel : Nat) (dic : LevelDict) :
    ∀ (n : Nat) (o : Outcome),
      levelsLoop fuel dic n o =
        (presentLevels dic n).foldlM
          (fun o v => processLevel fuel o (dicGetLs dic v)) o := by
  intro n
  induction n with
  | zero => intro o; rfl
  | succ n ih =>
    intro o
    simp only [levelsLoop, presentLevels]
    by_cases hls : dicGetLs dic ((n + 1 : Nat) : Int) = []
    · rw [if_pos hls, if_pos hls, List.nil_append]
      exact ih o
    · rw [if_neg hls, if_neg hls, List.singleton_append, List.foldlM_cons]
      cases hproc : processLevel fuel o (dicGetLs dic ((n + 1 : Nat) : Int)) with
      | error e => rfl
      | ok o2 => exact ih o2

lemma mem_presentLevels (dic : LevelDict) :
    ∀ (n : Nat) (x : Int), x ∈ presentLevels dic n ↔
      (1 ≤ x ∧ x ≤ (n : Int) ∧ dicGetLs dic x ≠ []) := by
  intro n
  induction n with
  | zero =>
    intro x
    constructor
    · intro h; cases h
    · rintro ⟨h1, h2, _⟩; omega
  | succ n ih =>
    intro x
    unfold presentLevels
    by_cases hls : dicGetLs dic ((n + 1 : Nat) : Int) = []
    · rw [if_pos hls, List.nil_append, ih x]
      constructor
      · rintro ⟨h1, h2, h3⟩
        refine ⟨h1, ?_, h3⟩
        push_cast at h2 ⊢
        omega
      · rintro ⟨h1, h2, h3⟩
        have hxn : x ≠ ((n + 1 : Nat) : Int) := by
          intro heq
          rw [heq] at h3
          exact h3 hls
        refine ⟨h1, ?_, h3⟩
        push_cast at h2 hxn ⊢
        omega
    · rw [if_neg hls, List.singleton_append, List.mem_cons, ih x]
      constructor
      · rintro (rfl | ⟨h1, h2, h3⟩)
        · refine ⟨by push_cast; omega, by push_cast; omega, hls⟩
        · refine ⟨h1, ?_, h3⟩
          push_cast at h2 ⊢
          omega
      · rintro ⟨h1, h2, h3⟩
        by_cases hx : x = ((n + 1 : Nat) : Int)
        · exact Or.inl hx
        · right
          refine ⟨h1, ?_, h3⟩
          push_cast at h2 hx ⊢
          omega

lemma presentLevels_pairwise (dic : LevelDict) :
    ∀ n : Nat, (presentLevels dic n).Pairwise (· > ·) := by
  intro n
  induction n with
  | zero => exact List.Pairwise.nil
  | succ n ih =>
    unfold presentLevels
    by_cases hls : dicGetLs dic ((n + 1 : Nat) : Int) = []
    · rw [if_pos hls, List.nil_append]
      exact ih
    · rw [if_neg hls, List.singleton_append]
      refine List.Pairwise.cons ?_ ih
      intro y hy
      have h2 := ((mem_presentLevels dic n y).mp hy).2.1
      push_cast at h2 ⊢
      omega

lemma descKeys_sorted (dic : LevelDict) :
    List.Sorted (fun a b : Int => b ≤ a) (descKeys dic) := by
  haveI : IsTotal Int (fun a b : Int => b ≤ a) := ⟨fun a b => le_total b a⟩
  haveI : IsTrans Int (fun a b : Int => b ≤ a) :=
    ⟨fun a b c h1 h2 => le_trans h2 h1⟩
  exact List.sorted_insertionSort _ _

lemma presentLevels_eq_descKeys (dic : LevelDict)
    (hprops : ∀ kv ∈ dic, kv.2 ≠ [] ∧ 1 ≤ kv.1)
    (hnd : (dic.map (·.1)).Nodup) :
    presentLevels dic (maxKey dic).toNat = descKeys dic := by
  have hperm0 : List.Perm (descKeys dic) (dic.map (·.1)) :=
    List.perm_insertionSort _ _
  have hmemiff : ∀ x : Int,
      x ∈ presentLevels dic (maxKey dic).toNat ↔ x ∈ descKeys dic := by
    intro x
    rw [mem_presentLevels, hperm0.mem_iff]
    constructor
    · rintro ⟨h1, h2, h3⟩
      by_contra hx
      exact h3 (dicGetLs_eq_nil_of_not_mem dic x hx)
    · intro hx
      obtain ⟨kv, hkv, hfst⟩ := List.mem_map.mp hx
      have hp := hprops kv hkv
      have hle := le_maxKey dic kv hkv
      refine ⟨?_, ?_, ?_⟩
      · rw [← hfst]; exact hp.2
      · have h0 : (0 : Int) ≤ maxKey dic := le_trans (by omega) (le_trans hp.2 hle)
        rw [Int.toNat_of_nonneg h0, ← hfst]
        exact hle
      · exact dicGetLs_ne_nil_of_mem dic x (fun kv hkv => (hprops kv hkv).1) hx
  have hsorted1 : List.Sorted (fun a b : Int => b ≤ a)
      (presentLevels dic (maxKey dic).toNat) :=
    (presentLevels_pairwise dic _).imp (fun h => le_of_lt h)
  have hnd1 : (presentLevels dic (maxKey dic).toNat).Nodup :=
    (presentLevels_pairwise dic _).imp (fun h => ne_of_gt h)
  have hnd2 : (descKeys dic).Nodup := hperm0.nodup_iff.mpr hnd
  have hperm : List.Perm (presentLevels dic (maxKey dic).toNat) (descKeys dic) :=
    (List.perm_ext_iff_of_nodup hnd1 hnd2).mpr hmemiff
  haveI : IsAntisymm Int (fun a b : Int => b ≤ a) :=
    ⟨fun a b h1 h2 => le_antisymm h2 h1⟩
  exact List.eq_of_perm_of_sorted hperm hsorted1 (descKeys_sorted dic)

/-- C7: `compute` considers only the strictly positive margin entries,
processes the present margin values in strictly descending order, and at
each level discards every pair for which `compatible` is false on the
Outcome accumulated from larger margins and bulk-accepts the remaining
pairs into a clone that becomes the current Outcome exactly when no
contradiction is raised (falling back to the leave-one-out heuristic on
a contradiction). -/
theorem compute_positive_descending (fuel : Nat) (c : Contest) :
    Contest.compute fuel c =
      Contest.compute fuel
        { c with margins := c.margins.filter fun kv => 0 < kv.2 } ∧
    Contest.compute fuel c = computeSpecDesc fuel c := by
  constructor
  · simp only [Contest.compute, Outcome.blank]
    rw [groupPos_filter_pos]
  · simp only [Contest.compute, computeSpecDesc]
    by_cases hdic : groupPos c.margins = []
    · rw [if_pos hdic, hdic]
      rfl
    · rw [if_neg hdic]
      have hprops := groupPos_props c.margins []
        (by intro kv h; cases h) (by simp)
      rw [levelsLoop_eq_foldlM,
        presentLevels_eq_descKeys (groupPos c.margins) hprops.1 hprops.2]
      simp only [processLevel_eq_spec]

end RPVote
